import Mathlib

/-!
Verification of the identifier and order-key primitives of the repository:

* `FractionalIndex` (src/app/src/models/fractional-index.ts): base-94
  string order keys with lexicographic comparison and midpoint derivation.
* `NuttyId` (src/app/src/models/nutty-id.ts): base-58 codec, a 7-character
  short code derived from the low 41 bits of a 128-bit UUID, and the
  checksum-verified wire format.

Strings are embedded as lists of character codes (`List Nat`) for the
fractional indices, and as `List Char` for the base-58 / hex material.
Fallible TypeScript functions returning `Either` are embedded as `Except`.
-/

namespace Nutty

/-- Generic success test for `Except`, mirroring `Either.isRight`. -/
def exceptIsOk {ε α : Type} : Except ε α → Bool
  | .ok _ => true
  | .error _ => false

namespace FractionalIndex

/-- Exclamation mark: the minimum character code (source constant `MIN_CHAR`). -/
def MIN_CHAR : Nat := 33

/-- Tilde: the maximum character code (source constant `MAX_CHAR`). -/
def MAX_CHAR : Nat := 126

/-- Number of possible values per digit (source constant `BASE`). -/
def BASE : Nat := 94

/-- Validation of a fractional-index string: every character code must lie
in `[MIN_CHAR, MAX_CHAR]` (source `isValidFractionalIndex`). -/
def isValidFractionalIndex (index : List Nat) : Bool :=
  index.all fun c => decide (MIN_CHAR ≤ c) && decide (c ≤ MAX_CHAR)

/-- Errors of the fractional-index module. The source returns message
strings; we keep their payloads structurally.  `identicalIndices` stands for
the string `Identical indices: b === a`, and `invalidChar` for
`Invalid character: c` (whose payload is `index.find(not isValid)`,
an `Option` since `Array.find` can return `undefined`). -/
inductive FIError : Type
  | identicalIndices (before after : List Nat)
  | invalidChar (c : Option Nat)
deriving DecidableEq, Repr

/-- Source `FractionalIndex.fromString`: validates the string and wraps it;
on failure reports the first invalid character. -/
def fromString (index : List Nat) : Except FIError (List Nat) :=
  if ¬ (isValidFractionalIndex index) then
    .error (.invalidChar (index.find? fun c => ! isValidFractionalIndex [c]))
  else
    .ok index

/-- Source `FractionalIndex.start`: the single character at code point 33. -/
def start : List Nat := [33]

/-- Source `FractionalIndex.end`: the single character at code point 126
(the identifier `end` is reserved in Lean). -/
def endIndex : List Nat := [126]

/-- JavaScript `s.padEnd(n, "!")`: right-pad with the minimum character up
to length `n` (no change when `s` is already at least that long). -/
def padEnd (l : List Nat) (n : Nat) : List Nat :=
  l ++ List.replicate (n - l.length) MIN_CHAR

/-- The per-position loop of `FractionalIndex.between`, over two padded
equal-length code lists and an incoming carry.  At each position the digit
values are `code - MIN_CHAR`, the emitted character is
`floor(sum / 2) + MIN_CHAR`, and the parity remainder carries with weight
`BASE` into the next position.  Returns the emitted characters and the
final carry. -/
def betweenLoop : List Nat → List Nat → Nat → List Nat × Nat
  | b :: bs, a :: as2, carry =>
    let bVal := b - MIN_CHAR
    let aVal := a - MIN_CHAR
    let sum := bVal + aVal + carry
    let digit := sum / 2
    let carry2 := (sum % 2) * BASE
    let rest := betweenLoop bs as2 carry2
    ((digit + MIN_CHAR) :: rest.1, rest.2)
  | _, _, carry => ([], carry)

/-- Source `FractionalIndex.between`: rejects identical indices, pads both
to a common length, averages digit-by-digit with carry, appends one extra
digit when a carry remains, and re-validates through `fromString`. -/
def between (before after : List Nat) : Except FIError (List Nat) :=
  if before = after then
    .error (.identicalIndices before after)
  else
    let maxLen := max before.length after.length
    let beforePadded := padEnd before maxLen
    let afterPadded := padEnd after maxLen
    let r := betweenLoop beforePadded afterPadded 0
    let result := r.1 ++ (if r.2 > 0 then [r.2 / 2 + MIN_CHAR] else [])
    fromString result

/-- JavaScript string `<` on equal-or-unequal length code lists:
lexicographic comparison by code units, a strict prefix being smaller. -/
def strLt : List Nat → List Nat → Bool
  | _, [] => false
  | [], _ :: _ => true
  | a :: as2, b :: bs => decide (a < b) || (a == b && strLt as2 bs)

/-- Source `FractionalIndex.compare`: right-pad both operands with the
minimum character to equal length, then compare lexicographically,
returning -1, 1 or 0. -/
def compare (self other : List Nat) : Int :=
  let maxLen := max self.length other.length
  let selfPadded := padEnd self maxLen
  let otherPadded := padEnd other maxLen
  if strLt selfPadded otherPadded then -1
  else if strLt otherPadded selfPadded then 1
  else 0

/-- Source `FractionalIndex.lessThan`. -/
def lessThan (self other : List Nat) : Bool :=
  decide (compare self other < 0)

/-- Source `FractionalIndex.greaterThan`. -/
def greaterThan (self other : List Nat) : Bool :=
  decide (compare self other > 0)

/-- Source `FractionalIndex.equals`. -/
def equals (self other : List Nat) : Bool :=
  compare self other == 0

end FractionalIndex

/-- Base-58 alphabet (₿-encoding), source constant `BASE_58_ALPHABET`. -/
def BASE_58_ALPHABET : List Char :=
  "123456789ABCDEFGHJKLMNPQRSTUVWXYZabcdefghijkmnopqrstuvwxyz".toList

/-- Little-endian digit extraction `while (remaining > 0) push(remaining % b);
remaining /= b`, written with a structural fuel argument so that the kernel
can evaluate it; `n` itself always suffices as fuel since the remaining
value shrinks strictly at every step.  `toDigitsCore_eq_digits` below
proves it satisfies exactly the loop recurrence (`Nat.digits`). -/
def toDigitsCore (b : Nat) : Nat → Nat → List Nat
  | _, 0 => []
  | 0, _ + 1 => []
  | fuel + 1, n + 1 => (n + 1) % b :: toDigitsCore b fuel ((n + 1) / b)

/-- Little-endian base-58 digits of a natural number, as accumulated by the
`while (remaining > 0n)` loop of `encodeBase58`. -/
def toDigits58 (n : Nat) : List Nat := toDigitsCore 58 n n

/-- Source `encodeBase58`: big-endian base-58 encoding of a non-negative
big integer, left-padded with the zero digit `1` to `padWidth`. -/
def encodeBase58 (value : Int) (padWidth : Nat) : Except String (List Char) :=
  if value < 0 then .error ("Invalid input: value must be positive")
  else if value = 0 then .ok (List.replicate padWidth '1')
  else
    let digits := toDigits58 value.toNat
    .ok (List.replicate (padWidth - digits.length) '1' ++
      digits.reverse.map (fun d => BASE_58_ALPHABET.getD d '1'))

/-- The character loop of `decodeBase58`: the source looks the character up
with `indexOf` and fails on -1; we test membership and use `indexOf` on the
hit, which is the same branching. -/
def decodeGo58 : List Char → Int → Except String Int
  | [], result => .ok result
  | c :: cs, result =>
    if BASE_58_ALPHABET.contains c then
      decodeGo58 cs (result * 58 + Int.ofNat (BASE_58_ALPHABET.indexOf c))
    else
      .error ("Invalid character " ++ String.mk [c] ++ " in base58 string")

/-- Source `decodeBase58`: rejects the empty string, then folds the digits
big-endian. -/
def decodeBase58 (input : List Char) : Except String Int :=
  if input.length = 0 then .error ("Invalid input: empty string")
  else decodeGo58 input 0

/-- Lowercase hexadecimal digits. -/
def HEX_DIGITS : List Char := "0123456789abcdef".toList

/-- Little-endian base-16 digits of a natural number. -/
def toDigits16 (n : Nat) : List Nat := toDigitsCore 16 n n

/-- JavaScript `v.toString(16)` on a non-negative bigint: lowercase hex
digits, most significant first, and `"0"` for zero. -/
def toHexString (v : Nat) : List Char :=
  if v = 0 then ['0']
  else (toDigits16 v).reverse.map (fun d => HEX_DIGITS.getD d '0')

/-- Numeric value of one hexadecimal character as `BigInt("0x...")` parses
it (case-insensitive).  Every call site below passes genuine hexadecimal
characters (JavaScript would throw otherwise). -/
def hexCharVal (c : Char) : Nat :=
  if HEX_DIGITS.contains c.toLower then HEX_DIGITS.indexOf c.toLower else 0

/-- JavaScript `BigInt("0x" + s)` on a hexadecimal string. -/
def fromHex (s : List Char) : Nat :=
  s.foldl (fun acc c => acc * 16 + hexCharVal c) 0

/-- Source `extractLast41Bits`: strip hyphens, take the last 12 hex
characters (`slice(-12)`), parse, and mask to 41 bits. -/
def extractLast41Bits (uuid : List Char) : Nat :=
  let hex := uuid.filter (fun c => c != '-')
  let lastBytes := hex.drop (hex.length - 12)
  let value := fromHex lastBytes
  value &&& ((1 <<< 41) - 1)

/-- Source `extractTimestamp`: the first 12 hex characters of the UUID are
its 48-bit millisecond timestamp. -/
def extractTimestamp (uuid : List Char) : Nat :=
  let hex := uuid.filter (fun c => c != '-')
  fromHex (hex.take 12)

/-- JavaScript string `<` on character lists (code-unit lexicographic,
strict prefixes smaller); all characters involved here are ASCII, where
code units and code points agree. -/
def strLtC : List Char → List Char → Bool
  | _, [] => false
  | [], _ :: _ => true
  | a :: as2, b :: bs => decide (a < b) || (a == b && strLtC as2 bs)

/-- JavaScript string `<=`, which is the negation of the reversed `<`. -/
def strLeC (a b : List Char) : Bool := ! strLtC b a

/-- The largest short code derivable from 41 bits, source literal
`"zmM9z4E"`. -/
def MAX_NID : List Char := "zmM9z4E".toList

/-- Source `isValidNuttyId`: exactly 7 characters, all in the base-58
alphabet, lexicographically at most `MAX_NID`. -/
def isValidNuttyId (id : List Char) : Bool :=
  if id.length != 7 then false
  else if ! (id.all fun c => BASE_58_ALPHABET.contains c) then false
  else strLeC id MAX_NID

/-- The deserialized `NuttyId`: the UUID string, the 7-character short
code, and the timestamp.  The `Temporal.ZonedDateTime` of the source is
represented by the epoch milliseconds it is built from
(`Temporal.Instant.fromEpochMilliseconds`); the attached time zone is the
decoding environment's and carries no information about the value. -/
structure NuttyId where
  uuid : List Char
  nid : List Char
  timestampMs : Nat
deriving DecidableEq, Repr

/-- Source `NuttyId.fromUuid`: derive the short code from the low 41 bits
and the timestamp from the leading 48 bits. -/
def NuttyId.fromUuid (uuid : List Char) : Except String NuttyId :=
  match encodeBase58 (Int.ofNat (extractLast41Bits uuid)) 7 with
  | .error e => .error e
  | .ok encodedNid => .ok ⟨uuid, encodedNid, extractTimestamp uuid⟩

/-- Failure cases of the wire-format codec `NuttyIdFromString`.  The
source fails through `ParseResult.fail` with message strings; we keep the
three decode failure sites and the encode failure site structurally. -/
inductive NuttyIdError : Type
  | invalidUuidEncoding
  | failedToEncodeNid (e : String)
  | nidMismatch (expected transmitted : List Char)
  | failedToEncodeUuid
deriving DecidableEq, Repr

/-- Reassembly of the hyphenated UUID string from 32 hex characters:
`slice(0,8)`, `slice(8,12)`, `slice(12,16)`, `slice(16,20)`,
`slice(20,32)` joined with hyphens, as in `NuttyIdFromString.decode`. -/
def formatUuid (h : List Char) : List Char :=
  h.take 8 ++ ['-'] ++ (h.drop 8).take 4 ++ ['-'] ++ (h.drop 12).take 4 ++
    ['-'] ++ (h.drop 16).take 4 ++ ['-'] ++ (h.drop 20).take 12

/-- Source `NuttyIdFromString.decode`: split the wire string on `:`,
decode the base-58 UUID segment, rebuild the hyphenated UUID string
(`padStart(32, "0")` then the five slices; the `UUID.make` pattern check
always passes on such a string), recompute the short code from the decoded
UUID, and reject the input when it differs from the transmitted one. -/
def nuttyIdDecode (input : List Char) : Except NuttyIdError NuttyId :=
  let uuidBase58 := input.takeWhile (fun c => c != ':')
  let nid := ((input.dropWhile (fun c => c != ':')).drop 1).takeWhile (fun c => c != ':')
  match decodeBase58 uuidBase58 with
  | .error _ => .error .invalidUuidEncoding
  | .ok uuidResult =>
    let uuidHex := toHexString uuidResult.toNat
    let uuid := formatUuid (List.replicate (32 - uuidHex.length) '0' ++ uuidHex)
    match encodeBase58 (Int.ofNat (extractLast41Bits uuid)) 7 with
    | .error e => .error (.failedToEncodeNid e)
    | .ok calculatedNid =>
      if calculatedNid != nid then .error (.nidMismatch calculatedNid nid)
      else .ok ⟨uuid, nid, extractTimestamp uuid⟩

/-- Source `NuttyIdFromString.encode`: strip hyphens from the UUID, parse
as a big hex integer, base-58 encode at width 22, and join with the stored
short code.  The final `StringifiedNuttyId.make` brand check of the source
re-validates the wire pattern; it always passes for the 128-bit UUID values
and branded 7-character short codes a `NuttyId` can hold, so it is not
modelled separately. -/
def nuttyIdEncode (input : NuttyId) : Except NuttyIdError (List Char) :=
  let uuidHex := input.uuid.filter (fun c => c != '-')
  let uuidBigInt := Int.ofNat (fromHex uuidHex)
  match encodeBase58 uuidBigInt 22 with
  | .error _ => .error .failedToEncodeUuid
  | .ok uuidBase58 => .ok (uuidBase58 ++ [':'] ++ input.nid)

/-- Canonical hyphenated lowercase UUID string of a 128-bit value — the
form produced by `padStart(32, "0")` plus the five slices, i.e. exactly
what `nuttyIdDecode` rebuilds. -/
def uuidStringOfVal (v : Nat) : List Char :=
  let raw := toHexString v
  formatUuid (List.replicate (32 - raw.length) '0' ++ raw)

/-- Modelled from the spec: a valid UUID string — 36 characters with
hyphens at positions 8, 13, 18 and 23 and hexadecimal digits elsewhere.
The schema enforcing this (`UUID` of the effect library) is an external
collaborator, not code of this repository. -/
def isUuidString (s : List Char) : Bool :=
  s.length == 36 &&
  (List.range 36).all fun i =>
    if i = 8 ∨ i = 13 ∨ i = 18 ∨ i = 23 then s.getD i ' ' == '-'
    else HEX_DIGITS.contains (s.getD i ' ').toLower

/-- Numeric value of a base-58 character string: the big-endian fold that
`decodeBase58` computes, expressed through `Nat.ofDigits` on the reversed
(little-endian) digit list. -/
def nidValue (s : List Char) : Nat :=
  Nat.ofDigits 58 (s.map fun c => BASE_58_ALPHABET.indexOf c).reverse

/-- The natural base-58 digit count of a value: the length of its digit
expansion, counting the value 0 as one digit (it is written `"1"`). -/
def base58DigitCount (n : Nat) : Nat := max 1 (toDigits58 n).length

end Nutty

namespace Nutty

namespace FractionalIndex

/-- A successful `find?` splits the list at the first element satisfying
the predicate. -/
theorem find?_first {α : Type} (p : α → Bool) :
    ∀ (l : List α) (c : α), l.find? p = some c →
      ∃ pre suf, l = pre ++ c :: suf ∧ p c = true ∧ ∀ d ∈ pre, p d = false := by
  intro l
  induction l with
  | nil => intro c h; simp [List.find?] at h
  | cons a l ih =>
    intro c h
    cases hp : p a with
    | true =>
      simp [List.find?, hp] at h
      subst h
      exact ⟨[], l, by simp, hp, by simp⟩
    | false =>
      simp [List.find?, hp] at h
      obtain ⟨pre, suf, hl, hc, hpre⟩ := ih c h
      refine ⟨a :: pre, suf, by simp [hl], hc, ?_⟩
      intro d hd
      rcases List.mem_cons.mp hd with h1 | h1
      · exact h1 ▸ hp
      · exact hpre d h1

/-- When some element satisfies the predicate, `find?` succeeds. -/
theorem find?_isSome_of_mem {α : Type} (p : α → Bool) :
    ∀ (l : List α) (x : α), x ∈ l → p x = true → ∃ c, l.find? p = some c := by
  intro l
  induction l with
  | nil => intro x hx; simp at hx
  | cons a l ih =>
    intro x hx hp
    cases hpa : p a with
    | true => exact ⟨a, by simp [List.find?, hpa]⟩
    | false =>
      rcases List.mem_cons.mp hx with h1 | h1
      · rw [h1] at hp; rw [hp] at hpa; cases hpa
      · obtain ⟨c, hc⟩ := ih x h1 hp
        exact ⟨c, by simp [List.find?, hpa, hc]⟩

/-- Validity unfolds to a pointwise character-range condition. -/
theorem isValid_iff_forall (s : List Nat) :
    isValidFractionalIndex s = true ↔ ∀ c ∈ s, MIN_CHAR ≤ c ∧ c ≤ MAX_CHAR := by
  simp [isValidFractionalIndex, List.all_eq_true]

/-- Comparison of equal lists is never strict. -/
theorem strLt_self : ∀ l : List Nat, strLt l l = false
  | [] => rfl
  | a :: l => by simp [strLt, strLt_self l]

/-- The digit-averaging loop is symmetric in its two digit sequences. -/
theorem betweenLoop_comm : ∀ (bs as2 : List Nat) (c : Nat),
    betweenLoop bs as2 c = betweenLoop as2 bs c
  | [], [], _ => rfl
  | [], _ :: _, _ => rfl
  | _ :: _, [], _ => rfl
  | b :: bs, a :: as2, c => by
    simp only [betweenLoop]
    rw [Nat.add_comm (b - MIN_CHAR) (a - MIN_CHAR), betweenLoop_comm bs as2]

/-- C1 (code bug): the valid indices `!~` and `"~` satisfy `lessThan`, yet
`between` fails on them: the averaging carry pushes the second digit to 140,
whose character code 173 lies outside `[33,126]`, so the internal
`fromString` re-validation rejects the computed midpoint.  The spec promises
`between` succeeds with a strict midpoint for every valid pair `a < b`. -/
theorem C1_between_overflow_bug :
    lessThan [33, 126] [34, 126] = true ∧
    isValidFractionalIndex [33, 126] = true ∧
    isValidFractionalIndex [34, 126] = true ∧
    between [33, 126] [34, 126] = .error (.invalidChar (some 173)) :=
  ⟨by decide, by decide, by decide, rfl⟩

/-- C2 (code bug): `between` does reject identical indices, but the claimed
converse fails: the distinct valid indices `!}` and `"}` also produce an
error (digit overflow to character code 172), so errors are not confined to
the degenerate-interval case. -/
theorem C2_between_error_not_only_identical :
    ([33, 125] : List Nat) ≠ [34, 125] ∧
    isValidFractionalIndex [33, 125] = true ∧
    isValidFractionalIndex [34, 125] = true ∧
    between [33, 125] [34, 125] = .error (.invalidChar (some 172)) :=
  ⟨by decide, by decide, by decide, rfl⟩

/-- C3 (counterexample): at the empty string the claim fails — `fromString`
accepts the empty string (the `every` of an empty character list is true),
while the claim requires success only for non-empty strings. -/
theorem C3_empty_string_accepted :
    ¬ ((exceptIsOk (fromString []) = true) ↔
        (([] : List Nat) ≠ [] ∧ ∀ c ∈ ([] : List Nat), MIN_CHAR ≤ c ∧ c ≤ MAX_CHAR)) := by
  decide

/-- C3 (amended): `fromString s` succeeds exactly when every character of
`s` lies in `[33,126]` — the empty string is accepted — and on failure the
error names the first invalid character of `s`. -/
theorem C3_fromString_characterization (s : List Nat) :
    ((exceptIsOk (fromString s) = true) ↔ ∀ c ∈ s, MIN_CHAR ≤ c ∧ c ≤ MAX_CHAR) ∧
    (∀ e, fromString s = .error e →
      ∃ pre c suf, s = pre ++ c :: suf ∧ e = FIError.invalidChar (some c) ∧
        ¬ (MIN_CHAR ≤ c ∧ c ≤ MAX_CHAR) ∧ ∀ d ∈ pre, MIN_CHAR ≤ d ∧ d ≤ MAX_CHAR) := by
  by_cases h : isValidFractionalIndex s = true
  · constructor
    · rw [fromString, if_neg (by simp [h])]
      simpa [exceptIsOk] using (isValid_iff_forall s).mp h
    · intro e he
      rw [fromString, if_neg (by simp [h])] at he
      cases he
  · have hbad : ¬ ∀ c ∈ s, MIN_CHAR ≤ c ∧ c ≤ MAX_CHAR := fun hr => h ((isValid_iff_forall s).mpr hr)
    have hform : fromString s = .error (.invalidChar (s.find? fun c => ! isValidFractionalIndex [c])) := by
      rw [fromString, if_pos (by simpa using h)]
    constructor
    · rw [hform]
      simp [exceptIsOk, hbad]
    · intro e he
      push_neg at hbad
      obtain ⟨c0, hc0mem, hc0bad⟩ := hbad
      have hc0p : (fun c => ! isValidFractionalIndex [c]) c0 = true := by
        simp [isValidFractionalIndex]
        omega
      obtain ⟨c, hc⟩ :=
        find?_isSome_of_mem (fun c => ! isValidFractionalIndex [c]) s c0 hc0mem hc0p
      obtain ⟨pre, suf, hsplit, hcp, hprep⟩ :=
        find?_first (fun c => ! isValidFractionalIndex [c]) s c hc
      rw [hform, hc] at he
      cases he
      refine ⟨pre, c, suf, hsplit, rfl, ?_, ?_⟩
      · intro hr
        simp [isValidFractionalIndex] at hcp
        omega
      · intro d hd
        have := hprep d hd
        simp [isValidFractionalIndex] at this
        omega

/-- Witness for the amended C3 at the concrete input consisting of the
single space character (code 32). -/
theorem C3_fromString_characterization_witness :
    exceptIsOk (fromString [32]) = false := by
  cases hx : exceptIsOk (fromString [32]) with
  | false => rfl
  | true =>
    have h := ((C3_fromString_characterization [32]).1.mp hx) 32 (by simp)
    exact absurd h (by decide)

/-- C9: appending a trailing minimum character (`!`) to a valid index
yields a distinct, valid string that the padded comparison considers equal:
`compare` returns 0 and `equals` returns true, so index equality is
strictly coarser than string equality. -/
theorem C9_trailing_min_compares_equal (s : List Nat)
    (hs : isValidFractionalIndex s = true) :
    isValidFractionalIndex (s ++ [MIN_CHAR]) = true ∧
    FractionalIndex.compare s (s ++ [MIN_CHAR]) = 0 ∧
    equals s (s ++ [MIN_CHAR]) = true ∧
    s ≠ s ++ [MIN_CHAR] := by
  have hmax : max s.length (s ++ [MIN_CHAR]).length = s.length + 1 := by
    simp
  have hpad1 : padEnd s (s.length + 1) = s ++ [MIN_CHAR] := by
    simp [padEnd]
  have hpad2 : padEnd (s ++ [MIN_CHAR]) (s.length + 1) = s ++ [MIN_CHAR] := by
    simp [padEnd]
  have hcmp : FractionalIndex.compare s (s ++ [MIN_CHAR]) = 0 := by
    rw [FractionalIndex.compare]
    simp only [hmax, hpad1, hpad2, strLt_self, Bool.false_eq_true, if_false]
  refine ⟨?_, hcmp, ?_, ?_⟩
  · simp [isValidFractionalIndex] at hs ⊢
    exact ⟨hs, by decide⟩
  · simp [equals, hcmp]
  · intro hcontra
    have := congrArg List.length hcontra
    simp at this

/-- Witness for C9 at the concrete valid index consisting of code 40. -/
theorem C9_trailing_min_compares_equal_witness :
    isValidFractionalIndex ([40] ++ [MIN_CHAR]) = true ∧
    FractionalIndex.compare [40] ([40] ++ [MIN_CHAR]) = 0 ∧
    equals [40] ([40] ++ [MIN_CHAR]) = true ∧
    [40] ≠ [40] ++ [MIN_CHAR] :=
  C9_trailing_min_compares_equal [40] (by decide)

/-- Lexicographic string comparison is transitive. -/
theorem strLt_trans : ∀ a b c : List Nat,
    strLt a b = true → strLt b c = true → strLt a c = true
  | _, _, [] => by
    intro _ h2
    rw [strLt] at h2
    cases h2
  | a, [], _ :: _ => by
    intro h1 _
    rw [strLt] at h1
    cases h1
  | [], _ :: _, _ :: _ => by
    intro _ _
    rfl
  | a :: as2, b :: bs, c :: cs => by
    intro h1 h2
    simp only [strLt, Bool.or_eq_true, Bool.and_eq_true, decide_eq_true_eq, beq_iff_eq] at h1 h2 ⊢
    rcases h1 with h1 | ⟨hab, h1⟩
    · rcases h2 with h2 | ⟨hbc, h2⟩
      · exact Or.inl (h1.trans h2)
      · exact Or.inl (hbc ▸ h1)
    · rcases h2 with h2 | ⟨hbc, h2⟩
      · exact Or.inl (hab ▸ h2)
      · exact Or.inr ⟨hab.trans hbc, strLt_trans as2 bs cs h1 h2⟩

/-- Appending a common suffix to two equal-length lists does not change
their lexicographic comparison. -/
theorem strLt_append_same : ∀ (u v w : List Nat), u.length = v.length →
    strLt (u ++ w) (v ++ w) = strLt u v
  | [], [], w, _ => by simp [strLt_self, strLt]
  | [], _ :: _, _, h => by simp at h
  | _ :: _, [], _, h => by simp at h
  | a :: u, b :: v, w, h => by
    simp only [List.cons_append, List.append_eq, strLt]
    rw [strLt_append_same u v w (by simpa using h)]

/-- Unfolding equation for `compare` with its local bindings expanded. -/
theorem compare_def (a b : List Nat) :
    FractionalIndex.compare a b =
      (if strLt (padEnd a (max a.length b.length)) (padEnd b (max a.length b.length)) then -1
       else if strLt (padEnd b (max a.length b.length)) (padEnd a (max a.length b.length)) then 1
       else 0) := rfl

/-- Length of a right-padded list. -/
theorem padEnd_length (l : List Nat) (n : Nat) :
    (padEnd l n).length = max l.length n := by
  simp [padEnd]
  omega

/-- Padding further than the common length leaves the comparison unchanged:
`lessThan` equals the strict comparison of both operands padded to any
common length `M` at least as large as both. -/
theorem lessThan_eq_strLt_pad (a b : List Nat) (M : Nat)
    (hM : max a.length b.length ≤ M) :
    lessThan a b = strLt (padEnd a M) (padEnd b M) := by
  have ha : a.length ≤ max a.length b.length := Nat.le_max_left _ _
  have hb : b.length ≤ max a.length b.length := Nat.le_max_right _ _
  have hsplit : ∀ l : List Nat, l.length ≤ max a.length b.length →
      padEnd l M = padEnd l (max a.length b.length) ++
        List.replicate (M - max a.length b.length) MIN_CHAR := by
    intro l hl
    simp only [padEnd, List.append_assoc, List.append_cancel_left_eq]
    rw [← List.replicate_add]
    congr 1
    omega
  rw [hsplit a ha, hsplit b hb,
    strLt_append_same _ _ _ (by rw [padEnd_length, padEnd_length]; omega)]
  rw [lessThan, compare_def]
  by_cases h1 : strLt (padEnd a (max a.length b.length)) (padEnd b (max a.length b.length)) = true
  · rw [if_pos h1, h1]
    decide
  · rw [if_neg h1]
    by_cases h2 : strLt (padEnd b (max a.length b.length)) (padEnd a (max a.length b.length)) = true
    · rw [if_pos h2]
      simp only [Bool.not_eq_true] at h1
      rw [h1]
      decide
    · rw [if_neg h2]
      simp only [Bool.not_eq_true] at h1
      rw [h1]
      decide

/-- C6: the padded lexicographic order `lessThan` on fractional indices is
transitive: padding all three operands to one common length reduces the
question to transitivity of plain lexicographic comparison. -/
theorem C6_lessThan_trans (a b c : List Nat)
    (ha : isValidFractionalIndex a = true) (hb : isValidFractionalIndex b = true)
    (hc : isValidFractionalIndex c = true)
    (hab : lessThan a b = true) (hbc : lessThan b c = true) :
    lessThan a c = true := by
  have hM1 : max a.length b.length ≤ max (max a.length b.length) c.length :=
    Nat.le_max_left _ _
  have hM2 : max b.length c.length ≤ max (max a.length b.length) c.length := by
    have := Nat.le_max_right a.length b.length
    have := Nat.le_max_left (max a.length b.length) c.length
    have := Nat.le_max_right (max a.length b.length) c.length
    rw [Nat.max_le]
    omega
  have hM3 : max a.length c.length ≤ max (max a.length b.length) c.length := by
    have := Nat.le_max_left a.length b.length
    have := Nat.le_max_left (max a.length b.length) c.length
    have := Nat.le_max_right (max a.length b.length) c.length
    rw [Nat.max_le]
    omega
  rw [lessThan_eq_strLt_pad a b _ hM1] at hab
  rw [lessThan_eq_strLt_pad b c _ hM2] at hbc
  rw [lessThan_eq_strLt_pad a c _ hM3]
  exact strLt_trans _ _ _ hab hbc

/-- Witness for C6 at the concrete valid indices `"`, `#!` and `$`. -/
theorem C6_lessThan_trans_witness : lessThan [34] [36] = true :=
  C6_lessThan_trans [34] [35, 33] [36] (by decide) (by decide) (by decide)
    (by decide) (by decide)

/-- C10: `between` is symmetric in its arguments — identical inputs yield
the same identical-indices error either way, and for distinct inputs the
padding and the digit-averaging loop are symmetric, so both orders return
the same result. -/
theorem C10_between_symmetric (a b : List Nat)
    (ha : isValidFractionalIndex a = true) (hb : isValidFractionalIndex b = true) :
    between a b = between b a := by
  by_cases h : a = b
  · subst h; rfl
  · have h2 : ¬ b = a := fun he => h he.symm
    rw [between, between, if_neg h, if_neg h2]
    simp only [Nat.max_comm b.length a.length]
    rw [betweenLoop_comm]

/-- Witness for C10 at the concrete valid indices `!` and `#`. -/
theorem C10_between_symmetric_witness : between [33] [35] = between [35] [33] :=
  C10_between_symmetric [33] [35] (by decide) (by decide)

end FractionalIndex

/-- With sufficient fuel, the digit-extraction loop computes `Nat.digits`:
both satisfy `digits n = if n = 0 then [] else n % b :: digits (n / b)`. -/
theorem toDigitsCore_eq_digits (b : Nat) (hb : 2 ≤ b) :
    ∀ fuel n, n ≤ fuel → toDigitsCore b fuel n = Nat.digits b n := by
  intro fuel
  induction fuel with
  | zero =>
    intro n hn
    have h0 : n = 0 := Nat.le_zero.mp hn
    subst h0
    simp [toDigitsCore]
  | succ f ih =>
    intro n hn
    match n with
    | 0 => simp [toDigitsCore]
    | m + 1 =>
      have hdiv : (m + 1) / b < m + 1 := Nat.div_lt_self (Nat.succ_pos m) (by omega)
      rw [show toDigitsCore b (f + 1) (m + 1) =
          (m + 1) % b :: toDigitsCore b f ((m + 1) / b) from rfl]
      rw [ih ((m + 1) / b) (by omega)]
      rw [Nat.digits_def' (by omega : 1 < b) (Nat.succ_pos m)]

/-- The source loop of `encodeBase58` produces the base-58 digits. -/
theorem toDigits58_eq_digits (n : Nat) : toDigits58 n = Nat.digits 58 n :=
  toDigitsCore_eq_digits 58 (by norm_num) n n (le_refl n)

/-- The hex digits used by `toString(16)`. -/
theorem toDigits16_eq_digits (n : Nat) : toDigits16 n = Nat.digits 16 n :=
  toDigitsCore_eq_digits 16 (by norm_num) n n (le_refl n)

/-- A left fold of `acc * b + digit` over a big-endian digit list computes
the positional value. -/
theorem foldl_mul_add (b : Nat) :
    ∀ (ds : List Nat) (acc : Nat),
      ds.foldl (fun a d => a * b + d) acc =
        acc * b ^ ds.length + Nat.ofDigits b ds.reverse
  | [], acc => by simp
  | d :: ds, acc => by
    rw [List.foldl_cons, foldl_mul_add b ds (acc * b + d)]
    rw [List.reverse_cons, Nat.ofDigits_append, Nat.ofDigits_singleton]
    simp only [List.length_cons, List.length_reverse]
    ring

/-- A block of zero digits contributes nothing. -/
theorem ofDigits_replicate_zero (b : Nat) :
    ∀ p, Nat.ofDigits b (List.replicate p 0) = 0 := by
  intro p
  induction p with
  | zero => simp
  | succ q ih => simp [List.replicate_succ, Nat.ofDigits_cons, ih]

/-- Every base-58 digit below 58 maps to an alphabet character that looks
up back to itself. -/
theorem alphabet_getD_indexOf :
    ∀ d, d < 58 → BASE_58_ALPHABET.contains (BASE_58_ALPHABET.getD d '1') = true ∧
      BASE_58_ALPHABET.indexOf (BASE_58_ALPHABET.getD d '1') = d := by
  decide

/-- Decoding undoes the digit-to-character map on in-range digit lists. -/
theorem map_indexOf_map_getD :
    ∀ ds : List Nat, (∀ d ∈ ds, d < 58) →
      (ds.map fun d => BASE_58_ALPHABET.getD d '1').map
        (fun c => BASE_58_ALPHABET.indexOf c) = ds := by
  intro ds
  induction ds with
  | nil => intro _; rfl
  | cons d ds ih =>
    intro h
    have hd := (alphabet_getD_indexOf d (h d (by simp))).2
    simp only [List.map_cons, hd, List.cons.injEq, true_and]
    exact ih fun x hx => h x (by simp [hx])

/-- The folding loop of `decodeBase58` on alphabet characters succeeds and
computes the accumulated positional value. -/
theorem decodeGo58_ok :
    ∀ (cs : List Char) (acc : Int),
      (∀ c ∈ cs, BASE_58_ALPHABET.contains c = true) →
      decodeGo58 cs acc = .ok (acc * 58 ^ cs.length + Int.ofNat (nidValue cs))
  | [], acc, _ => by
    simp [decodeGo58, nidValue]
  | c :: cs, acc, h => by
    have hc : BASE_58_ALPHABET.contains c = true := h c (by simp)
    rw [show decodeGo58 (c :: cs) acc =
        (if BASE_58_ALPHABET.contains c then
          decodeGo58 cs (acc * 58 + Int.ofNat (BASE_58_ALPHABET.indexOf c))
        else .error ("Invalid character " ++ String.mk [c] ++ " in base58 string")) from rfl]
    rw [if_pos hc, decodeGo58_ok cs _ fun x hx => h x (List.mem_cons_of_mem c hx)]
    have hval : nidValue (c :: cs) =
        nidValue cs + 58 ^ cs.length * BASE_58_ALPHABET.indexOf c := by
      simp only [nidValue, List.map_cons, List.reverse_cons, Nat.ofDigits_append,
        List.length_reverse, List.length_map, Nat.ofDigits_singleton]
    rw [hval]
    congr 1
    simp only [List.length_cons, Int.ofNat_eq_natCast]
    push_cast
    ring

/-- Explicit success form of `encodeBase58` on non-negative values; the
zero case also fits the general shape since zero has no digits. -/
theorem encodeBase58_ok (v : Int) (hv : 0 ≤ v) (w : Nat) :
    encodeBase58 v w = .ok (List.replicate (w - (toDigits58 v.toNat).length) '1' ++
      (toDigits58 v.toNat).reverse.map fun d => BASE_58_ALPHABET.getD d '1') := by
  rw [encodeBase58, if_neg (by omega)]
  by_cases h0 : v = 0
  · subst h0
    rw [if_pos rfl]
    simp [toDigits58, toDigitsCore]
  · rw [if_neg h0]

/-- Round-trip core: encoding a non-negative value at any width (at least 1
when the value is 0) yields an alphabet string of the padded length that
decodes back to the value. -/
theorem decode_encode_aux (v : Int) (hv : 0 ≤ v) (w : Nat)
    (hw : 1 ≤ w ∨ v ≠ 0) :
    ∃ s, encodeBase58 v w = .ok s ∧
      s.length = max w (toDigits58 v.toNat).length ∧
      (∀ c ∈ s, BASE_58_ALPHABET.contains c = true) ∧
      decodeBase58 s = .ok v := by
  have hds : ∀ d ∈ toDigits58 v.toNat, d < 58 := by
    intro d hd
    rw [toDigits58_eq_digits] at hd
    exact Nat.digits_lt_base (by norm_num) hd
  refine ⟨_, encodeBase58_ok v hv w, ?_, ?_, ?_⟩
  · simp only [List.length_append, List.length_replicate, List.length_map,
      List.length_reverse]
    omega
  · intro c hc
    rcases List.mem_append.mp hc with hc | hc
    · have : c = '1' := List.eq_of_mem_replicate hc
      subst this
      decide
    · obtain ⟨d, hd, hcd⟩ := List.mem_map.mp hc
      subst hcd
      exact (alphabet_getD_indexOf d (hds d (List.mem_reverse.mp hd))).1
  · have hlen : (List.replicate (w - (toDigits58 v.toNat).length) '1' ++
        (toDigits58 v.toNat).reverse.map fun d => BASE_58_ALPHABET.getD d '1').length ≠ 0 := by
      simp only [List.length_append, List.length_replicate, List.length_map,
        List.length_reverse]
      rcases hw with hw | hw
      · omega
      · have : v.toNat ≠ 0 := by omega
        have : toDigits58 v.toNat ≠ [] := by
          rw [toDigits58_eq_digits]
          exact Nat.digits_ne_nil_iff_ne_zero.mpr this
        have : (toDigits58 v.toNat).length ≠ 0 := fun h => this (List.eq_nil_of_length_eq_zero h)
        omega
    rw [decodeBase58, if_neg hlen]
    rw [decodeGo58_ok _ 0 ?valid]
    case valid =>
      intro c hc
      rcases List.mem_append.mp hc with hc | hc
      · have : c = '1' := List.eq_of_mem_replicate hc
        subst this
        decide
      · obtain ⟨d, hd, hcd⟩ := List.mem_map.mp hc
        subst hcd
        exact (alphabet_getD_indexOf d (hds d (List.mem_reverse.mp hd))).1
    have hmap : ((List.replicate (w - (toDigits58 v.toNat).length) '1' ++
        (toDigits58 v.toNat).reverse.map fun d => BASE_58_ALPHABET.getD d '1').map
          fun c => BASE_58_ALPHABET.indexOf c) =
        List.replicate (w - (toDigits58 v.toNat).length) 0 ++ (toDigits58 v.toNat).reverse := by
      rw [List.map_append, List.map_replicate]
      rw [map_indexOf_map_getD _ fun d hd => hds d (List.mem_reverse.mp hd)]
      rfl
    have hval : nidValue (List.replicate (w - (toDigits58 v.toNat).length) '1' ++
        (toDigits58 v.toNat).reverse.map fun d => BASE_58_ALPHABET.getD d '1') = v.toNat := by
      rw [nidValue, hmap, List.reverse_append, List.reverse_reverse, List.reverse_replicate]
      rw [Nat.ofDigits_append, ofDigits_replicate_zero]
      rw [toDigits58_eq_digits, Nat.ofDigits_digits]
      ring
    rw [hval]
    simp only [zero_mul, zero_add, Int.ofNat_eq_natCast]
    congr 1
    exact Int.toNat_of_nonneg hv

/-- C5: base-58 decode inverts encode for every non-negative value and
every width at least the natural digit count of the value. -/
theorem C5_decode_encode_roundtrip (v : Int) (w : Nat) (hv : 0 ≤ v)
    (hw : base58DigitCount v.toNat ≤ w) :
    (encodeBase58 v w).bind decodeBase58 = .ok v := by
  obtain ⟨s, henc, _, _, hdec⟩ := decode_encode_aux v hv w (by
    left
    have : 1 ≤ base58DigitCount v.toNat := Nat.le_max_left 1 _
    omega)
  rw [henc]
  exact hdec

/-- Witness for C5 at the repository's own test vector 1852570767862,
whose 7-digit encoding is `qfWLRgy`. -/
theorem C5_decode_encode_roundtrip_witness :
    0 ≤ (1852570767862 : Int) ∧
    base58DigitCount (1852570767862 : Int).toNat ≤ 7 ∧
    (encodeBase58 1852570767862 7).bind decodeBase58 = .ok 1852570767862 :=
  ⟨by norm_num, by decide, C5_decode_encode_roundtrip 1852570767862 7 (by norm_num) (by decide)⟩

/-- Membership form of the boolean `contains`. -/
theorem contains_iff_mem {l : List Char} {c : Char} : l.contains c = true ↔ c ∈ l := by
  simp [List.contains]

/-- The base-58 alphabet is listed in strictly increasing character order,
so the character order of alphabet members coincides with the order of
their digit values. -/
theorem alphabet_strict_mono : ∀ c ∈ BASE_58_ALPHABET, ∀ d ∈ BASE_58_ALPHABET,
    (c < d ↔ BASE_58_ALPHABET.indexOf c < BASE_58_ALPHABET.indexOf d) := by
  decide

/-- Big-endian cons step for `nidValue`. -/
theorem nidValue_cons (c : Char) (cs : List Char) :
    nidValue (c :: cs) = nidValue cs + 58 ^ cs.length * BASE_58_ALPHABET.indexOf c := by
  simp only [nidValue, List.map_cons, List.reverse_cons, Nat.ofDigits_append,
    List.length_reverse, List.length_map, Nat.ofDigits_singleton]

/-- The value of an alphabet string is bounded by the power of its length. -/
theorem nidValue_lt_pow (s : List Char)
    (hs : ∀ c ∈ s, BASE_58_ALPHABET.contains c = true) :
    nidValue s < 58 ^ s.length := by
  have hd : ∀ x ∈ (s.map fun c => BASE_58_ALPHABET.indexOf c).reverse, x < 58 := by
    intro x hx
    rw [List.mem_reverse] at hx
    obtain ⟨c, hc, rfl⟩ := List.mem_map.mp hx
    have hm : c ∈ BASE_58_ALPHABET := contains_iff_mem.mp (hs c hc)
    have := List.indexOf_lt_length.mpr hm
    simpa using this
  have h2 := Nat.ofDigits_lt_base_pow_length (by norm_num : (1 : ℕ) < 58) hd
  simpa [nidValue] using h2

/-- A strictly smaller head digit forces a strictly smaller value,
independently of the tails (of equal length). -/
theorem nidValue_head_lt (a b : Char) (as2 bs : List Char)
    (hlen : as2.length = bs.length)
    (hsa : ∀ c ∈ as2, BASE_58_ALPHABET.contains c = true)
    (hab : BASE_58_ALPHABET.indexOf a < BASE_58_ALPHABET.indexOf b) :
    nidValue (a :: as2) < nidValue (b :: bs) := by
  rw [nidValue_cons, nidValue_cons, hlen]
  have hva := nidValue_lt_pow as2 hsa
  rw [hlen] at hva
  calc nidValue as2 + 58 ^ bs.length * BASE_58_ALPHABET.indexOf a
      < 58 ^ bs.length + 58 ^ bs.length * BASE_58_ALPHABET.indexOf a := by omega
    _ = 58 ^ bs.length * (BASE_58_ALPHABET.indexOf a + 1) := by ring
    _ ≤ 58 ^ bs.length * BASE_58_ALPHABET.indexOf b := Nat.mul_le_mul_left _ (by omega)
    _ ≤ nidValue bs + 58 ^ bs.length * BASE_58_ALPHABET.indexOf b := Nat.le_add_left _ _

/-- On equal-length alphabet strings, the JavaScript lexicographic order is
exactly the numeric order of the base-58 values. -/
theorem strLtC_iff_value : ∀ (s t : List Char), s.length = t.length →
    (∀ c ∈ s, BASE_58_ALPHABET.contains c = true) →
    (∀ c ∈ t, BASE_58_ALPHABET.contains c = true) →
    (strLtC s t = true ↔ nidValue s < nidValue t)
  | [], [], _, _, _ => by
    simp [strLtC]
  | [], t :: ts, h, _, _ => by simp at h
  | s :: ss, [], h, _, _ => by simp at h
  | a :: as2, b :: bs, h, hs, ht => by
    have hlen : as2.length = bs.length := by simpa using h
    have hmema : a ∈ BASE_58_ALPHABET := contains_iff_mem.mp (hs a (by simp))
    have hmemb : b ∈ BASE_58_ALPHABET := contains_iff_mem.mp (ht b (by simp))
    have hsa : ∀ c ∈ as2, BASE_58_ALPHABET.contains c = true :=
      fun c hc => hs c (by simp [hc])
    have htb : ∀ c ∈ bs, BASE_58_ALPHABET.contains c = true :=
      fun c hc => ht c (by simp [hc])
    have hmono := alphabet_strict_mono a hmema b hmemb
    have hmono2 := alphabet_strict_mono b hmemb a hmema
    constructor
    · intro hlt
      simp only [strLtC, Bool.or_eq_true, Bool.and_eq_true, decide_eq_true_eq,
        beq_iff_eq] at hlt
      rcases hlt with hab | ⟨hab, hrec⟩
      · exact nidValue_head_lt a b as2 bs hlen hsa (hmono.mp hab)
      · subst hab
        rw [nidValue_cons, nidValue_cons, hlen]
        have := (strLtC_iff_value as2 bs hlen hsa htb).mp hrec
        omega
    · intro hv
      rcases lt_trichotomy a b with hab | hab | hab
      · simp [strLtC, hab]
      · subst hab
        rw [nidValue_cons, nidValue_cons, hlen] at hv
        have hrec : nidValue as2 < nidValue bs := by omega
        have := (strLtC_iff_value as2 bs hlen hsa htb).mpr hrec
        simp [strLtC, this]
      · have := nidValue_head_lt b a bs as2 hlen.symm htb (hmono2.mp hab)
        omega

/-- The bound literal `zmM9z4E` has exactly the largest 41-bit value. -/
theorem nidValue_MAX_NID : nidValue MAX_NID = 2 ^ 41 - 1 := by decide

/-- On a non-empty all-alphabet string, `decodeBase58` succeeds with the
positional value. -/
theorem decodeBase58_ok_of_alphabet (s : List Char) (hne : s.length ≠ 0)
    (hs : ∀ c ∈ s, BASE_58_ALPHABET.contains c = true) :
    decodeBase58 s = .ok (Int.ofNat (nidValue s)) := by
  rw [decodeBase58, if_neg hne, decodeGo58_ok s 0 hs]
  simp

/-- C7: the bare short-code validity predicate accepts exactly the strings
of 7 alphabet characters whose base-58 numeric value fits in 41 bits; the
lexicographic bound `zmM9z4E` implements the numeric bound because the
alphabet string is listed in increasing character order. -/
theorem C7_isValidNuttyId_iff (s : List Char) :
    isValidNuttyId s = true ↔
      (s.length = 7 ∧ (∀ c ∈ s, c ∈ BASE_58_ALPHABET) ∧
        ∃ v, decodeBase58 s = .ok v ∧ v ≤ 2 ^ 41 - 1) := by
  rw [isValidNuttyId]
  by_cases h7 : s.length = 7
  case neg =>
    rw [if_pos (by simpa using h7)]
    constructor
    · intro h
      exact absurd h (by decide)
    · rintro ⟨h, _⟩
      exact absurd h h7
  case pos =>
    rw [if_neg (by simpa using h7)]
    by_cases hall : ∀ c ∈ s, c ∈ BASE_58_ALPHABET
    case neg =>
      have hallB : (s.all fun c => BASE_58_ALPHABET.contains c) = false := by
        cases hx : s.all fun c => BASE_58_ALPHABET.contains c with
        | false => rfl
        | true =>
          exact absurd (fun c hc => contains_iff_mem.mp (List.all_eq_true.mp hx c hc)) hall
      rw [if_pos (by rw [hallB]; rfl)]
      constructor
      · intro h
        exact absurd h (by decide)
      · rintro ⟨_, h, _⟩
        exact absurd h hall
    case pos =>
      have hcont : ∀ c ∈ s, BASE_58_ALPHABET.contains c = true :=
        fun c hc => contains_iff_mem.mpr (hall c hc)
      have hallT : (s.all fun c => BASE_58_ALPHABET.contains c) = true :=
        List.all_eq_true.mpr hcont
      rw [if_neg (by rw [hallT]; decide)]
      have hdec := decodeBase58_ok_of_alphabet s (by omega) hcont
      have hMAXc : ∀ c ∈ MAX_NID, BASE_58_ALPHABET.contains c = true := by decide
      have hiff := strLtC_iff_value MAX_NID s (by rw [h7]; rfl) hMAXc hcont
      constructor
      · intro hle
        refine ⟨h7, hall, Int.ofNat (nidValue s), hdec, ?_⟩
        have hbound : nidValue s ≤ nidValue MAX_NID := by
          cases hx : strLtC MAX_NID s with
          | true =>
            rw [strLeC, hx] at hle
            cases hle
          | false =>
            rcases Nat.lt_or_ge (nidValue MAX_NID) (nidValue s) with h2 | h2
            · have := hiff.mpr h2
              rw [hx] at this
              cases this
            · exact h2
        rw [nidValue_MAX_NID] at hbound
        simp only [Int.ofNat_eq_natCast]
        omega
      · rintro ⟨_, _, v, hv, hvle⟩
        rw [hdec] at hv
        have hveq : v = Int.ofNat (nidValue s) := by
          cases hv
          rfl
        subst hveq
        have hbound : nidValue s ≤ 2 ^ 41 - 1 := by
          simp only [Int.ofNat_eq_natCast] at hvle
          omega
        cases hx : strLtC MAX_NID s with
        | false =>
          rw [strLeC, hx]
          rfl
        | true =>
          exfalso
          have := hiff.mp hx
          rw [nidValue_MAX_NID] at this
          omega

/-- Witness for C7 at the boundary literal itself. -/
theorem C7_isValidNuttyId_iff_witness : isValidNuttyId MAX_NID = true := by
  rw [C7_isValidNuttyId_iff MAX_NID]
  refine ⟨by decide, by decide, Int.ofNat (nidValue MAX_NID), ?_, ?_⟩
  · exact decodeBase58_ok_of_alphabet MAX_NID (by decide) (by decide)
  · rw [nidValue_MAX_NID]
    decide

/-- The 41-bit mask keeps the extracted value below `2 ^ 41`, whatever the
input string. -/
theorem extractLast41Bits_lt (uuid : List Char) : extractLast41Bits uuid < 2 ^ 41 := by
  simp only [extractLast41Bits]
  have h : (1 <<< 41 : Nat) - 1 = 2 ^ 41 - 1 := by norm_num [Nat.shiftLeft_eq]
  rw [h, Nat.and_pow_two_sub_one_eq_mod]
  exact Nat.mod_lt _ (by norm_num)

/-- Success form of `NuttyId.fromUuid`: the encoder is called on a
non-negative masked value with width 7, so it always succeeds. -/
theorem fromUuid_ok (uuid : List Char) :
    NuttyId.fromUuid uuid = .ok ⟨uuid,
      List.replicate (7 - (toDigits58 (extractLast41Bits uuid)).length) '1' ++
        (toDigits58 (extractLast41Bits uuid)).reverse.map
          (fun d => BASE_58_ALPHABET.getD d '1'),
      extractTimestamp uuid⟩ := by
  unfold NuttyId.fromUuid
  rw [encodeBase58_ok (Int.ofNat (extractLast41Bits uuid))
      (by rw [Int.ofNat_eq_natCast]; exact Int.natCast_nonneg _) 7]
  rfl

/-- C8: on every valid UUID string the masked low-41-bit value is below
`2 ^ 41`, `encodeBase58` at width 7 takes no error branch on it, and
`fromUuid` succeeds — so the assertion throw in `now()` is unreachable. -/
theorem C8_fromUuid_never_fails (s : List Char) (hs : isUuidString s = true) :
    extractLast41Bits s < 2 ^ 41 ∧
    exceptIsOk (encodeBase58 (Int.ofNat (extractLast41Bits s)) 7) = true ∧
    exceptIsOk (NuttyId.fromUuid s) = true := by
  refine ⟨extractLast41Bits_lt s, ?_, ?_⟩
  · rw [encodeBase58_ok _ (by rw [Int.ofNat_eq_natCast]; exact Int.natCast_nonneg _) 7]
    rfl
  · rw [fromUuid_ok s]
    rfl

/-- Witness for C8 at the UUID string from the repository's test suite. -/
theorem C8_fromUuid_never_fails_witness :
    extractLast41Bits ("0196934a-2c78-7e03-884f-bd7d01cb50ab".toList) < 2 ^ 41 ∧
    exceptIsOk (encodeBase58
      (Int.ofNat (extractLast41Bits ("0196934a-2c78-7e03-884f-bd7d01cb50ab".toList))) 7) = true ∧
    exceptIsOk (NuttyId.fromUuid ("0196934a-2c78-7e03-884f-bd7d01cb50ab".toList)) = true :=
  C8_fromUuid_never_fails _ (by decide)

/-- A value below `b ^ k` has at most `k` digits in base `b`. -/
theorem digits_length_le_of_lt_base_pow {b : Nat} (hb : 1 < b) {m k : Nat}
    (h : m < b ^ k) : (Nat.digits b m).length ≤ k := by
  rcases Nat.eq_zero_or_pos m with rfl | hm
  · simp
  · by_contra hc
    push_neg at hc
    have h1 := Nat.base_pow_length_digits_le b m hb (by omega)
    have h2 : b ^ (k + 1) ≤ b ^ (Nat.digits b m).length :=
      Nat.pow_le_pow_right (by omega) (by omega)
    have h3 : b * m < b * b ^ k := by
      have hb0 : 0 < b := by omega
      exact Nat.mul_lt_mul_of_le_of_lt (le_refl b) h hb0
    have h4 : b * b ^ k = b ^ (k + 1) := by ring
    omega

/-- Accumulator form of the `fromHex` fold. -/
theorem fromHex_acc (s : List Char) (acc : Nat) :
    s.foldl (fun a c => a * 16 + hexCharVal c) acc =
      acc * 16 ^ s.length + fromHex s := by
  have h1 : ∀ a : Nat, s.foldl (fun x c => x * 16 + hexCharVal c) a =
      (s.map hexCharVal).foldl (fun x d => x * 16 + d) a := by
    intro a
    rw [List.foldl_map]
  rw [fromHex, h1, h1, foldl_mul_add, foldl_mul_add]
  simp

/-- Value form of `fromHex` as a digit interpretation. -/
theorem fromHex_eq_ofDigits (s : List Char) :
    fromHex s = Nat.ofDigits 16 (s.map hexCharVal).reverse := by
  have h1 : s.foldl (fun x c => x * 16 + hexCharVal c) 0 =
      (s.map hexCharVal).foldl (fun x d => x * 16 + d) 0 := by
    rw [List.foldl_map]
  rw [fromHex, h1, foldl_mul_add]
  simp

/-- Splitting a hex string splits its value positionally. -/
theorem fromHex_append (x y : List Char) :
    fromHex (x ++ y) = fromHex x * 16 ^ y.length + fromHex y := by
  rw [fromHex, List.foldl_append]
  rw [show x.foldl (fun a c => a * 16 + hexCharVal c) 0 = fromHex x from rfl]
  rw [fromHex_acc]

/-- Hex character values are hex digits. -/
theorem hexCharVal_lt (c : Char) : hexCharVal c < 16 := by
  rw [hexCharVal]
  split
  · next h =>
    have := List.indexOf_lt_length.mpr (contains_iff_mem.mp h)
    simpa using this
  · norm_num

/-- The value of a hex string is bounded by the power of its length. -/
theorem fromHex_lt (s : List Char) : fromHex s < 16 ^ s.length := by
  rw [fromHex_eq_ofDigits]
  have hd : ∀ x ∈ (s.map hexCharVal).reverse, x < 16 := by
    intro x hx
    rw [List.mem_reverse] at hx
    obtain ⟨c, _, rfl⟩ := List.mem_map.mp hx
    exact hexCharVal_lt c
  have := Nat.ofDigits_lt_base_pow_length (by norm_num : (1 : ℕ) < 16) hd
  simpa using this

/-- The sixteen digit characters parse back to their values. -/
theorem hex_getD_roundtrip : ∀ d, d < 16 → hexCharVal (HEX_DIGITS.getD d '0') = d := by
  decide

/-- Parsing undoes the digit-to-hex-character map on in-range digit lists. -/
theorem map_hexCharVal_map_getD :
    ∀ ds : List Nat, (∀ d ∈ ds, d < 16) →
      (ds.map fun d => HEX_DIGITS.getD d '0').map hexCharVal = ds := by
  intro ds
  induction ds with
  | nil => intro _; rfl
  | cons d ds ih =>
    intro h
    have hd := hex_getD_roundtrip d (h d (by simp))
    simp only [List.map_cons, hd, List.cons.injEq, true_and]
    exact ih fun x hx => h x (by simp [hx])

/-- Leading zero characters contribute nothing to a hex value. -/
theorem fromHex_replicate_zero (k : Nat) : fromHex (List.replicate k '0') = 0 := by
  induction k with
  | zero => rfl
  | succ m ih =>
    rw [List.replicate_succ, fromHex, List.foldl_cons]
    rw [show (0 * 16 + hexCharVal '0') = 0 by decide]
    exact ih

/-- Parsing inverts `toString(16)`, also under `padStart` zeros. -/
theorem fromHex_pad_toHexString (v k : Nat) :
    fromHex (List.replicate k '0' ++ toHexString v) = v := by
  rw [fromHex_append, fromHex_replicate_zero, zero_mul, zero_add]
  rw [toHexString]
  split
  · next h0 => subst h0; decide
  · next h0 =>
    rw [fromHex_eq_ofDigits]
    rw [map_hexCharVal_map_getD _ (fun d hd => by
      rw [toDigits16_eq_digits] at hd
      exact Nat.digits_lt_base (by norm_num) (List.mem_reverse.mp hd))]
    rw [List.reverse_reverse, toDigits16_eq_digits, Nat.ofDigits_digits]

/-- No character of a `toString(16)` rendering is a hyphen. -/
theorem toHexString_ne_hyphen (v : Nat) : ∀ c ∈ toHexString v, c ≠ '-' := by
  intro c hc
  rw [toHexString] at hc
  split at hc
  · rw [List.mem_singleton] at hc
    subst hc
    decide
  · obtain ⟨d, _, rfl⟩ := List.mem_map.mp hc
    have hall : ∀ c ∈ HEX_DIGITS, c ≠ '-' := by decide
    rcases Nat.lt_or_ge d HEX_DIGITS.length with h | h
    · have hmem : HEX_DIGITS.getD d '0' ∈ HEX_DIGITS := by
        rw [List.getD_eq_getElem?_getD, List.getElem?_eq_getElem h]
        exact List.getElem_mem h
      exact hall _ hmem
    · rw [List.getD_eq_getElem?_getD, List.getElem?_eq_none (by omega), Option.getD_none]
      decide

/-- The 32-character hex block reassembles from the five UUID slices. -/
theorem reassemble32 (h : List Char) (hlen : h.length = 32) :
    h.take 8 ++ ((h.drop 8).take 4 ++ ((h.drop 12).take 4 ++
      ((h.drop 16).take 4 ++ (h.drop 20).take 12))) = h := by
  have e20 : (h.drop 20).take 12 = h.drop 20 :=
    List.take_of_length_le (by simp [hlen])
  have e16 : (h.drop 16).take 4 ++ h.drop 20 = h.drop 16 := by
    rw [show h.drop 20 = (h.drop 16).drop 4 from by rw [List.drop_drop]]
    exact List.take_append_drop 4 (h.drop 16)
  have e12 : (h.drop 12).take 4 ++ h.drop 16 = h.drop 12 := by
    rw [show h.drop 16 = (h.drop 12).drop 4 from by rw [List.drop_drop]]
    exact List.take_append_drop 4 (h.drop 12)
  have e8 : (h.drop 8).take 4 ++ h.drop 12 = h.drop 8 := by
    rw [show h.drop 12 = (h.drop 8).drop 4 from by rw [List.drop_drop]]
    exact List.take_append_drop 4 (h.drop 8)
  rw [e20, e16, e12, e8]
  exact List.take_append_drop 8 h

/-- Stripping the hyphens of a formatted UUID recovers its hex block. -/
theorem filter_formatUuid (h : List Char) (hlen : h.length = 32)
    (hh : ∀ c ∈ h, c ≠ '-') :
    (formatUuid h).filter (fun c => c != '-') = h := by
  have hp : ∀ l : List Char, (∀ c ∈ l, c ≠ '-') →
      l.filter (fun c => c != '-') = l := by
    intro l hl
    apply List.filter_eq_self.mpr
    intro a ha
    simpa using hl a ha
  have hsub : ∀ n m : Nat, ∀ c ∈ (h.drop n).take m, c ≠ '-' :=
    fun n m c hc => hh c (List.mem_of_mem_drop (List.mem_of_mem_take hc))
  rw [formatUuid]
  simp only [List.filter_append]
  rw [hp _ (fun c hc => hh c (List.mem_of_mem_take hc)), hp _ (hsub 8 4),
    hp _ (hsub 12 4), hp _ (hsub 16 4), hp _ (hsub 20 12)]
  rw [show List.filter (fun c => c != '-') ['-'] = [] from rfl]
  simp only [List.append_nil, List.nil_append, List.append_assoc]
  exact reassemble32 h hlen

/-- On a hyphen-free 32-character hex block, the low-41-bit extraction of
the formatted UUID is the value modulo `2 ^ 41`: the last 12 hex characters
carry the value modulo `16 ^ 12`, and the mask reduces further since
`2 ^ 41` divides `16 ^ 12 = 2 ^ 48`. -/
theorem extractLast41Bits_formatUuid (p : List Char) (hlen : p.length = 32)
    (hh : ∀ c ∈ p, c ≠ '-') :
    extractLast41Bits (formatUuid p) = fromHex p % 2 ^ 41 := by
  simp only [extractLast41Bits]
  rw [filter_formatUuid p hlen hh, hlen]
  rw [show (32 : Nat) - 12 = 20 from rfl]
  have hlen20 : (p.drop 20).length = 12 := by simp [hlen]
  have hfrom : fromHex p = fromHex (p.take 20) * 16 ^ 12 + fromHex (p.drop 20) := by
    conv_lhs => rw [← List.take_append_drop 20 p]
    rw [fromHex_append, hlen20]
  have hlt : fromHex (p.drop 20) < 16 ^ 12 := by
    have := fromHex_lt (p.drop 20)
    rwa [hlen20] at this
  have hmod : fromHex (p.drop 20) = fromHex p % 16 ^ 12 := by
    rw [hfrom, Nat.mul_comm (fromHex (List.take 20 p)) (16 ^ 12), Nat.mul_add_mod,
      Nat.mod_eq_of_lt hlt]
  rw [hmod]
  have hmask : (1 <<< 41 : Nat) - 1 = 2 ^ 41 - 1 := by norm_num [Nat.shiftLeft_eq]
  rw [hmask, Nat.and_pow_two_sub_one_eq_mod,
    Nat.mod_mod_of_dvd _ (by norm_num : (2 : ℕ) ^ 41 ∣ 16 ^ 12)]

/-- Int.ofNat values are non-negative. -/
theorem intOfNat_nonneg (n : Nat) : 0 ≤ Int.ofNat n := by
  rw [Int.ofNat_eq_natCast]
  exact Int.natCast_nonneg _

/-- Splitting on the first colon keeps the colon-free prefix. -/
theorem takeWhile_append_colon (A B : List Char)
    (hA : ∀ c ∈ A, (c != ':') = true) :
    (A ++ ':' :: B).takeWhile (fun c => c != ':') = A := by
  induction A with
  | nil => simp [List.takeWhile_cons]
  | cons a A ih =>
    simp only [List.cons_append, List.takeWhile_cons, hA a (by simp), if_true]
    rw [ih fun c hc => hA c (by simp [hc])]

/-- Dropping up to the first colon leaves the colon and the suffix. -/
theorem dropWhile_append_colon (A B : List Char)
    (hA : ∀ c ∈ A, (c != ':') = true) :
    (A ++ ':' :: B).dropWhile (fun c => c != ':') = ':' :: B := by
  induction A with
  | nil => simp [List.dropWhile_cons]
  | cons a A ih =>
    simp only [List.cons_append, List.dropWhile_cons, hA a (by simp), if_true]
    exact ih fun c hc => hA c (by simp [hc])

/-- A colon-free list survives `takeWhile` whole. -/
theorem takeWhile_all_of (A : List Char) (hA : ∀ c ∈ A, (c != ':') = true) :
    A.takeWhile (fun c => c != ':') = A := by
  induction A with
  | nil => rfl
  | cons a A ih =>
    simp only [List.takeWhile_cons, hA a (by simp), if_true]
    rw [ih fun c hc => hA c (by simp [hc])]

/-- Alphabet characters are never the wire separator. -/
theorem alphabet_ne_colon : ∀ c ∈ BASE_58_ALPHABET, (c != ':') = true := by
  decide

/-- The rendered hex of a 128-bit value fits in 32 characters. -/
theorem toHexString_length_le (v : Nat) (hv : v < 2 ^ 128) :
    (toHexString v).length ≤ 32 := by
  rw [toHexString]
  split
  · simp
  · simp only [List.length_map, List.length_reverse]
    rw [toDigits16_eq_digits]
    refine digits_length_le_of_lt_base_pow (by norm_num) ?_
    calc v < 2 ^ 128 := hv
      _ = 16 ^ 32 := by norm_num

/-- Unfolded success form of the wire encoder. -/
theorem nuttyIdEncode_eq (n : NuttyId) (b58 : List Char)
    (hb : encodeBase58 (Int.ofNat (fromHex (n.uuid.filter fun c => c != '-'))) 22 = .ok b58) :
    nuttyIdEncode n = .ok (b58 ++ [':'] ++ n.nid) := by
  simp only [nuttyIdEncode]
  rw [hb]

/-- Behaviour of the wire decoder on a well-formed wire string: the UUID
segment decodes to `u`, the rebuilt UUID string is the canonical rendering
of `u`, the recomputed short code is compared with the transmitted segment,
and the decoder succeeds exactly on agreement. -/
theorem nuttyIdDecode_wire (u : Nat) (hu : u < 2 ^ 128) (b58 nid0 nid2 : List Char)
    (hdecb : decodeBase58 b58 = .ok (Int.ofNat u))
    (hb58 : ∀ c ∈ b58, (c != ':') = true)
    (hn0 : encodeBase58 (Int.ofNat (u % 2 ^ 41)) 7 = .ok nid0)
    (h2 : ∀ c ∈ nid2, (c != ':') = true) :
    nuttyIdDecode (b58 ++ [':'] ++ nid2) =
      if nid0 != nid2 then .error (.nidMismatch nid0 nid2)
      else .ok ⟨uuidStringOfVal u, nid2, extractTimestamp (uuidStringOfVal u)⟩ := by
  have hplen : (List.replicate (32 - (toHexString u).length) '0' ++ toHexString u).length = 32 := by
    have := toHexString_length_le u hu
    simp only [List.length_append, List.length_replicate]
    omega
  have hph : ∀ c ∈ List.replicate (32 - (toHexString u).length) '0' ++ toHexString u, c ≠ '-' := by
    intro c hc
    rcases List.mem_append.mp hc with hc | hc
    · have := List.eq_of_mem_replicate hc
      subst this
      decide
    · exact toHexString_ne_hyphen u c hc
  have hextract : extractLast41Bits (uuidStringOfVal u) = u % 2 ^ 41 := by
    rw [show uuidStringOfVal u =
        formatUuid (List.replicate (32 - (toHexString u).length) '0' ++ toHexString u) from rfl]
    rw [extractLast41Bits_formatUuid _ hplen hph, fromHex_pad_toHexString]
  have hw : b58 ++ [':'] ++ nid2 = b58 ++ ':' :: nid2 := by simp
  simp only [nuttyIdDecode, hw]
  rw [takeWhile_append_colon _ _ hb58, dropWhile_append_colon _ _ hb58]
  rw [show (':' :: nid2).drop 1 = nid2 from rfl]
  rw [takeWhile_all_of nid2 h2, hdecb]
  simp only [show (Int.ofNat u).toNat = u from rfl]
  rw [show formatUuid (List.replicate (32 - (toHexString u).length) '0' ++ toHexString u) =
      uuidStringOfVal u from rfl]
  rw [hextract, hn0]

/-- C4: wire-format integrity.  For every 128-bit UUID value, the NuttyId
derived by `fromUuid` encodes to a wire string that decodes back to exactly
the same NuttyId (in particular the same 128-bit UUID value), and replacing
any single character of the 7-character short-code segment by a different
alphabet character makes the decoder fail with the checksum-mismatch
error. -/
theorem C4_checksum_integrity (u : Nat) (hu : u < 2 ^ 128)
    (n : NuttyId) (hn : NuttyId.fromUuid (uuidStringOfVal u) = .ok n)
    (w : List Char) (hw : nuttyIdEncode n = .ok w) :
    nuttyIdDecode w = .ok n ∧
    fromHex (n.uuid.filter fun c => c != '-') = u ∧
    ∀ (i : Nat) (c : Char), i < 7 → c ∈ BASE_58_ALPHABET → n.nid.set i c ≠ n.nid →
      nuttyIdDecode ((w.takeWhile fun ch => ch != ':') ++ [':'] ++ n.nid.set i c) =
        .error (.nidMismatch n.nid (n.nid.set i c)) := by
  have hplen : (List.replicate (32 - (toHexString u).length) '0' ++ toHexString u).length = 32 := by
    have := toHexString_length_le u hu
    simp only [List.length_append, List.length_replicate]
    omega
  have hph : ∀ c ∈ List.replicate (32 - (toHexString u).length) '0' ++ toHexString u, c ≠ '-' := by
    intro c hc
    rcases List.mem_append.mp hc with hc | hc
    · have := List.eq_of_mem_replicate hc
      subst this
      decide
    · exact toHexString_ne_hyphen u c hc
  have huuidval : fromHex ((uuidStringOfVal u).filter fun c => c != '-') = u := by
    rw [show uuidStringOfVal u =
        formatUuid (List.replicate (32 - (toHexString u).length) '0' ++ toHexString u) from rfl]
    rw [filter_formatUuid _ hplen hph, fromHex_pad_toHexString]
  have hextract : extractLast41Bits (uuidStringOfVal u) = u % 2 ^ 41 := by
    rw [show uuidStringOfVal u =
        formatUuid (List.replicate (32 - (toHexString u).length) '0' ++ toHexString u) from rfl]
    rw [extractLast41Bits_formatUuid _ hplen hph, fromHex_pad_toHexString]
  obtain ⟨nid0, hn0, hn0len, hn0alpha, hn0dec⟩ :=
    decode_encode_aux (Int.ofNat (u % 2 ^ 41)) (intOfNat_nonneg _) 7 (by left; norm_num)
  have hneq : n = ⟨uuidStringOfVal u, nid0, extractTimestamp (uuidStringOfVal u)⟩ := by
    rw [fromUuid_ok] at hn
    injection hn with h
    rw [← h, hextract]
    have he := encodeBase58_ok (Int.ofNat (u % 2 ^ 41)) (intOfNat_nonneg _) 7
    rw [hn0] at he
    injection he with h2
    rw [show (Int.ofNat (u % 2 ^ 41)).toNat = u % 2 ^ 41 from rfl] at h2
    rw [h2]
  have hnuuid : n.uuid = uuidStringOfVal u := by rw [hneq]
  have hnnid : n.nid = nid0 := by rw [hneq]
  obtain ⟨s58, hs58enc, hs58len, hs58alpha, hs58dec⟩ :=
    decode_encode_aux (Int.ofNat u) (intOfNat_nonneg _) 22 (by left; norm_num)
  have hs58colon : ∀ c ∈ s58, (c != ':') = true :=
    fun c hc => alphabet_ne_colon c (contains_iff_mem.mp (hs58alpha c hc))
  have hn0colon : ∀ c ∈ nid0, (c != ':') = true :=
    fun c hc => alphabet_ne_colon c (contains_iff_mem.mp (hn0alpha c hc))
  have hwe : w = s58 ++ [':'] ++ nid0 := by
    have hb : encodeBase58 (Int.ofNat (fromHex (n.uuid.filter fun c => c != '-'))) 22 =
        .ok s58 := by
      rw [hnuuid, huuidval]
      exact hs58enc
    rw [nuttyIdEncode_eq n s58 hb] at hw
    injection hw with h
    rw [← h, hnnid]
  have htw : ((s58 ++ [':'] ++ nid0).takeWhile fun ch => ch != ':') = s58 := by
    rw [show s58 ++ [':'] ++ nid0 = s58 ++ ':' :: nid0 by simp]
    exact takeWhile_append_colon _ _ hs58colon
  refine ⟨?_, ?_, ?_⟩
  · rw [hwe, nuttyIdDecode_wire u hu s58 nid0 nid0 hs58dec hs58colon hn0 hn0colon,
      if_neg (by simp), hneq]
  · rw [hnuuid]
    exact huuidval
  · intro i c hi hc hne
    rw [hnnid] at hne ⊢
    have hnid2colon : ∀ ch ∈ nid0.set i c, (ch != ':') = true := by
      intro ch hch
      rcases List.mem_or_eq_of_mem_set hch with h1 | h1
      · exact hn0colon ch h1
      · subst h1
        exact alphabet_ne_colon ch hc
    rw [hwe, htw,
      nuttyIdDecode_wire u hu s58 nid0 (nid0.set i c) hs58dec hs58colon hn0 hnid2colon,
      if_pos (by
        rw [bne_iff_ne]
        exact fun hx => hne hx.symm)]

/-- Witness for C4 at the test vector of the repository: the UUID value of
`0196934a-2c78-7e03-884f-bd7d01cb50ab`, whose wire string is
`1CNjZEV7a6mVR14vf8UtLA:jzBBXYW`, decoded intact and with its first
short-code character replaced by `2`. -/
theorem C4_checksum_integrity_witness :
    nuttyIdDecode ("1CNjZEV7a6mVR14vf8UtLA:jzBBXYW".toList) =
      .ok ⟨"0196934a-2c78-7e03-884f-bd7d01cb50ab".toList, "jzBBXYW".toList,
        0x0196934a2c78⟩ ∧
    nuttyIdDecode (("1CNjZEV7a6mVR14vf8UtLA:jzBBXYW".toList.takeWhile
        fun ch => ch != ':') ++ [':'] ++ "jzBBXYW".toList.set 0 '2') =
      .error (.nidMismatch ("jzBBXYW".toList) ("jzBBXYW".toList.set 0 '2')) := by
  have h := C4_checksum_integrity 0x0196934a2c787e03884fbd7d01cb50ab (by norm_num)
    ⟨"0196934a-2c78-7e03-884f-bd7d01cb50ab".toList, "jzBBXYW".toList, 0x0196934a2c78⟩
    (by rfl) ("1CNjZEV7a6mVR14vf8UtLA:jzBBXYW".toList) (by rfl)
  exact ⟨h.1, h.2.2 0 '2' (by norm_num) (by decide) (by decide)⟩

end Nutty
